import Mathlib

/-!
Verification of the numeric reduction layer of the `ndarray` strided
multi-dimensional array library (`src/numeric/impl_numeric.rs`):
`sum`, `product`, `mean`, `max`/`min`, `nanmax`/`nanmin`, `sum_axis`,
and the streaming Welford `var_axis`/`std_axis`.

Element type: floating-point scalars are embedded as `EF := Option ℚ`,
an exact rational (`some q`) or the single non-ordered value `none`
modelling IEEE NaN.  `PartialOrd`/`PartialEq` on floats become the
boolean predicates `ef_lt`/`ef_eq`, which are `false` whenever either
side is the non-ordered value; arithmetic propagates the non-ordered
value.  Division by zero is mapped to the non-ordered value: the claims
under study never depend on the finite/infinite distinction of IEEE
division by zero, and both sides of every refinement statement use the
same division.

Arrays: the claims concern 2-D (and derived 1-D) arrays.  An array is a
list of logical rows plus a column count and a layout tag recording the
verdict of the memory-order contiguity classifier (row-major
contiguous, column-major contiguous, or not contiguous), since the
classifier itself lives outside the sources under study.
-/

namespace NdVerif

/-- An embedded floating-point scalar: an exact rational or the
non-ordered (NaN) value `none`. -/
abbrev EF : Type := Option ℚ

/-- The non-ordered (NaN-like) value. -/
def EF.nan : EF := none

/-- An ordered scalar from a rational. -/
def EF.ofRat (q : ℚ) : EF := some q

/-- An ordered scalar from a natural number, modelling `A::from_usize`
for the embedded float type (which never fails on rationals). -/
def EF.ofNat (n : ℕ) : EF := some ((n : ℤ) : ℚ)

/-- Addition; the non-ordered value propagates. -/
def ef_add : EF → EF → EF
  | some a, some b => some (a + b)
  | _, _ => none

/-- Subtraction; the non-ordered value propagates. -/
def ef_sub : EF → EF → EF
  | some a, some b => some (a - b)
  | _, _ => none

/-- Multiplication; the non-ordered value propagates. -/
def ef_mul : EF → EF → EF
  | some a, some b => some (a * b)
  | _, _ => none

/-- Division; the non-ordered value propagates, and division by zero
yields the non-ordered value (see the header comment). -/
def ef_div : EF → EF → EF
  | some a, some b => if b = 0 then none else some (a / b)
  | _, _ => none

/-- Fused multiply-add `a * b + c`.  On exact rationals the fused and
unfused computations coincide, so fused semantics is just this. -/
def ef_mulAdd (a b c : EF) : EF := ef_add (ef_mul a b) c

/-- The strict comparison of `PartialOrd`: `false` whenever either side
is the non-ordered value. -/
def ef_lt : EF → EF → Bool
  | some a, some b => decide (a < b)
  | _, _ => false

/-- The equality of `PartialEq` on floats: `false` whenever either side
is the non-ordered value (so the non-ordered value fails `x == x`). -/
def ef_eq : EF → EF → Bool
  | some a, some b => decide (a = b)
  | _, _ => false

/-- Non-strict comparison derived from `ef_lt`/`ef_eq`. -/
def ef_le (a b : EF) : Bool := ef_lt a b || ef_eq a b

/-- Verdict of the memory-order contiguity classifier for a 2-D array:
row-major contiguous, column-major contiguous, or neither. -/
inductive Layout where
  | cOrder : Layout
  | fOrder : Layout
  | nonContig : Layout
deriving DecidableEq

/-- A 2-D array: logical rows, the column count of its shape, and the
classifier verdict for its layout. -/
structure Arr2 (α : Type) where
  rows : List (List α)
  ncols : ℕ
  layout : Layout

/-- The elements of the array in logical (row-major index) order. -/
def Arr2.elems {α : Type} (a : Arr2 α) : List α := a.rows.flatten

/-- Well-formedness: every row has exactly `ncols` elements. -/
def Rect {α : Type} (a : Arr2 α) : Prop := ∀ r ∈ a.rows, r.length = a.ncols

instance {α : Type} (a : Arr2 α) : Decidable (Rect a) :=
  decidable_of_iff (∀ r ∈ a.rows, r.length = a.ncols) Iff.rfl

/-- The elements of the array in column-major memory order.  The
default `d` is never read on a `Rect` array; it only totalises the
positional lookup. -/
def colMajor {α : Type} (d : α) (a : Arr2 α) : List α :=
  (List.range a.ncols).flatMap (fun j => a.rows.map (fun r => r.getD j d))

/-- Modelled from the spec: `as_slice_memory_order` is not among the
sources under study; per the spec (section 4.2) it returns the flat
element sequence in memory order exactly when the strides match the
row-major or column-major default for the shape, which the `Layout`
verdict records. -/
def asSliceMemOrder {α : Type} (d : α) (a : Arr2 α) : Option (List α) :=
  match a.layout with
  | Layout.cOrder => some a.elems
  | Layout.fOrder => some (colMajor d a)
  | Layout.nonContig => none

/-- Modelled from the spec: `numeric_util::unrolled_fold` is not among
the sources under study; per the spec (section 6) fold ordering stays
deterministic and left-to-right, so it is the identity-seeded left
fold of the slice. -/
def unrolledFold {α : Type} (z : α) (op : α → α → α) (l : List α) : α :=
  List.foldl op z l

/-- `ArrayBase::sum`: the memory-order contiguous fast path when the
classifier succeeds, else the row-by-row fallback.  In the fallback,
the per-row contiguous-slice branch and the per-row iterator branch of
the source both fold the row left-to-right from the identity, so they
are one branch here (`inner_rows`, not among the sources under study,
yields the logical rows in order per spec section 4.3). -/
def sumArr {α : Type} (z : α) (op : α → α → α) (a : Arr2 α) : α :=
  match asSliceMemOrder z a with
  | some slc => unrolledFold z op slc
  | none => List.foldl (fun acc row => op acc (unrolledFold z op row)) z a.rows

/-- `ArrayBase::product`: same two-path structure as `sum` with the
multiplicative identity and operation. -/
def productArr {α : Type} (o : α) (op : α → α → α) (a : Arr2 α) : α :=
  match asSliceMemOrder o a with
  | some slc => unrolledFold o op slc
  | none => List.foldl (fun acc row => op acc (unrolledFold o op row)) o a.rows

/-- The numeric-type capability interface consumed by `mean`:
identities, arithmetic, and the fallible count conversion
`A::from_usize`. -/
structure NumOps (α : Type) where
  zero : α
  add : α → α → α
  div : α → α → α
  fromUsize : ℕ → Option α

/-- `ArrayBase::mean`: `None` on zero elements, otherwise `sum / count`;
`Except.error` models the panic when the count conversion fails. -/
def meanArr {α : Type} (ops : NumOps α) (a : Arr2 α) : Except String (Option α) :=
  let n := a.elems.length
  if n = 0 then Except.ok none
  else
    match ops.fromUsize n with
    | none => Except.error ("Converting number of elements to the element type must not fail.")
    | some c => Except.ok (some (ops.div (sumArr ops.zero ops.add a) c))

/-- The rational instantiation of the numeric interface (count
conversion never fails). -/
def ratOps : NumOps ℚ :=
  ⟨0, fun x y => x + y, fun x y => x / y, fun n => some ((n : ℤ) : ℚ)⟩

/-- A numeric interface whose count conversion only represents counts
up to 2, exercising the conversion-failure panic of `mean`. -/
def tinyOps : NumOps ℚ :=
  ⟨0, fun x y => x + y, fun x y => x / y, fun n => if n ≤ 2 then some ((n : ℤ) : ℚ) else none⟩

/-- The fold step of `max`:
`if acc == acc && !(x < acc) { x } else { acc }`. -/
def stepMax (acc x : EF) : EF :=
  if ef_eq acc acc && ! ef_lt x acc then x else acc

/-- The fold step of `min`:
`if acc == acc && !(acc < x) { x } else { acc }`. -/
def stepMin (acc x : EF) : EF :=
  if ef_eq acc acc && ! ef_lt acc x then x else acc

/-- The fold step of `nanmax`:
`if acc == acc && !(x > acc) { acc } else { x }`. -/
def stepNanMax (acc x : EF) : EF :=
  if ef_eq acc acc && ! ef_lt acc x then acc else x

/-- The fold step of `nanmin`:
`if acc == acc && !(x < acc) { acc } else { x }`. -/
def stepNanMin (acc x : EF) : EF :=
  if ef_eq acc acc && ! ef_lt x acc then acc else x

/-- The common shape of the four extrema reductions: if the array has a
first element, fold the given step over all elements seeded with the
first element, then reject a non-ordered result; `None` on an empty
array. -/
def extremaCore (step : EF → EF → EF) (l : List EF) : Option EF :=
  match l with
  | [] => none
  | first :: _ =>
    let m := List.foldl step first l
    if ef_eq m m then some m else none

/-- Core of `max` on the element sequence. -/
def maxList (l : List EF) : Option EF := extremaCore stepMax l

/-- Core of `min` on the element sequence. -/
def minList (l : List EF) : Option EF := extremaCore stepMin l

/-- Core of `nanmax` on the element sequence. -/
def nanmaxList (l : List EF) : Option EF := extremaCore stepNanMax l

/-- Core of `nanmin` on the element sequence. -/
def nanminList (l : List EF) : Option EF := extremaCore stepNanMin l

/-- `ArrayBase::max` on an array (`first` and `fold` walk the elements
of the array; the claims established about the result are insensitive
to the traversal order, taken here as logical order). -/
def maxArr (a : Arr2 EF) : Option EF := maxList a.elems

/-- `ArrayBase::min` on an array. -/
def minArr (a : Arr2 EF) : Option EF := minList a.elems

/-- `ArrayBase::nanmax` on an array. -/
def nanmaxArr (a : Arr2 EF) : Option EF := nanmaxList a.elems

/-- `ArrayBase::nanmin` on an array. -/
def nanminArr (a : Arr2 EF) : Option EF := nanminList a.elems

/-- Element-wise addition of two equal-length vectors, the
`res = res + &view` accumulation step of `sum_axis`. -/
def zipAdd (xs ys : List ℚ) : List ℚ := List.zipWith (fun x y => x + y) xs ys

/-- The value of 1-D `sum`: identity-seeded left fold (for rationals
every fold order of the two `sum` paths has this value). -/
def sum1 (l : List ℚ) : ℚ := List.foldl (fun x y => x + y) 0 l

/-- Column `j` of the array (the view `index_axis(Axis(1), j)`). -/
def colOf (a : Arr2 ℚ) (j : ℕ) : List ℚ := a.rows.map (fun r => r.getD j 0)

/-- `ArrayBase::sum_axis` on a 2-D rational array, axis `0` or `1`.
The source takes a per-output-lane fast path when the stride along the
reduced axis is `1`; with strides abstracted by the classifier verdict,
the fast path is taken for axis `1` of a row-major array and axis `0`
of a column-major array, and the general accumulating path otherwise
(for rationals the two paths agree in value, which the theorems below
prove for every layout). -/
def sumAxis (a : Arr2 ℚ) (ax : ℕ) : List ℚ :=
  if ax = 0 then
    if a.layout = Layout.fOrder then
      (List.range a.ncols).map (fun j => sum1 (colOf a j))
    else
      List.foldl zipAdd (List.replicate a.ncols 0) a.rows
  else
    if a.layout = Layout.cOrder then
      a.rows.map (fun r => sum1 r)
    else
      List.foldl zipAdd (List.replicate a.rows.length 0) ((List.range a.ncols).map (colOf a))

/-- `sum_axis(Axis(0))` of a rank-1 array (the general accumulating
path: a rank-0 accumulator starting at zero, one addition per
element). -/
def sumAxis1D (l : List ℚ) : ℚ := List.foldl (fun x y => x + y) 0 l

/-- `len_of(Axis(ax))` of a 2-D array. -/
def lenOf {α : Type} (a : Arr2 α) (ax : ℕ) : ℕ :=
  if ax = 0 then a.rows.length else a.ncols

/-- The subviews produced by `axis_iter(Axis(ax))` in increasing index
order, each flattened to its element positions: the rows for axis `0`,
the columns for axis `1`. -/
def slicesOf (a : Arr2 EF) (ax : ℕ) : List (List EF) :=
  if ax = 0 then a.rows
  else (List.range a.ncols).map (fun j => a.rows.map (fun r => r.getD j EF.nan))

/-- The number of element positions of the shape with the axis
removed. -/
def posOf {α : Type} (a : Arr2 α) (ax : ℕ) : ℕ :=
  if ax = 0 then a.ncols else a.rows.length

/-- One slice of the Welford accumulation of `var_axis`: in lockstep
over every element position (the `azip!` of the source),
`delta = x - mean; mean = mean + delta / count;
sum_sq = fma(x - mean, delta, sum_sq)`. -/
def welfordStep (count : EF) (ms : List (EF × EF)) (xs : List EF) : List (EF × EF) :=
  List.zipWith
    (fun p x =>
      let delta := ef_sub x p.1
      let m := ef_add p.1 (ef_div delta count)
      (m, ef_mulAdd (ef_sub x m) delta p.2))
    ms xs

/-- The `enumerate`d loop of `var_axis`: slice at 0-based position `i`
is consumed with `count = from_usize(i + 1)`. -/
def welfordGo : ℕ → List (EF × EF) → List (List EF) → List (EF × EF)
  | _, ms, [] => ms
  | i, ms, xs :: rest => welfordGo (i + 1) (welfordStep (EF.ofNat (i + 1)) ms xs) rest

/-- `ArrayBase::var_axis`.  `Except.error` models the two panics: the
axis bound check of `len_of` (modelled from the spec, section 4.5 /
3, as the dimension machinery is not among the sources under study)
and the `ddof` assertion `assert!(!(ddof < 0 || ddof > n))`, which
runs before any accumulation. -/
def var_axis (a : Arr2 EF) (ax : ℕ) (ddof : EF) : Except String (List EF) :=
  if 2 ≤ ax then Except.error ("axis is out of bounds")
  else
    let n := EF.ofNat (lenOf a ax)
    if ef_lt ddof (EF.ofNat 0) || ef_lt n ddof then
      Except.error ("ddof must not be less than zero or greater than the length of the axis")
    else
      let dof := ef_sub n ddof
      let ms := welfordGo 0 (List.replicate (posOf a ax) (EF.ofNat 0, EF.ofNat 0)) (slicesOf a ax)
      Except.ok (ms.map (fun p => ef_div p.2 dof))

/-- `ArrayBase::std_axis`: `var_axis` followed by element-wise square
root.  The square root of the numeric-type collaborator is a
parameter; the claims only constrain it at perfect squares. -/
def std_axis (sq : EF → EF) (a : Arr2 EF) (ax : ℕ) (ddof : EF) : Except String (List EF) :=
  Except.map (fun l => l.map sq) (var_axis a ax ddof)

/-- The update of one slice exactly as the specification words it:
`delta = x - mean; mean += delta / k; sum_sq += (x - mean) * delta`
with fused multiply-add semantics for the `sum_sq` update, at counter
value `k`. -/
def welfordSpecStep (k : EF) (ms : List (EF × EF)) (xs : List EF) : List (EF × EF) :=
  List.zipWith
    (fun p x =>
      let delta := ef_sub x p.1
      let mean := ef_add p.1 (ef_div delta k)
      let ssq := ef_add (ef_mul (ef_sub x mean) delta) p.2
      (mean, ssq))
    ms xs

/-- Spec-side loop where the counter is the 1-indexed position of the
slice being consumed: slice number `c` (1-indexed) divides by `c`. -/
def welfordSpecGo : ℕ → List (EF × EF) → List (List EF) → List (EF × EF)
  | _, ms, [] => ms
  | c, ms, xs :: rest => welfordSpecGo (c + 1) (welfordSpecStep (EF.ofNat c) ms xs) rest

/-- The Welford recurrence as the specification words it, with the
counter read as the 1-indexed position of the slice being consumed:
`mean`/`sum_sq` vectors of `p` positions initialised to zero, one
`welfordSpecStep` per slice in order, then element-wise division of
`sum_sq` by `(axis_length - ddof)`. -/
def varAxisSpec (slices : List (List EF)) (p : ℕ) (ddof : EF) : List EF :=
  let n := EF.ofNat slices.length
  let ms := welfordSpecGo 1 (List.replicate p (EF.ofNat 0, EF.ofNat 0)) slices
  ms.map (fun q => ef_div q.2 (ef_sub n ddof))

/-- Literal transcription of the claimed recurrence: when consuming the
`(k + 1)`-th slice (1-indexed) the mean update divides by `k`, so the
first slice (its `k` is `0`) divides by zero. -/
def welfordLitGo : ℕ → List (EF × EF) → List (List EF) → List (EF × EF)
  | _, ms, [] => ms
  | k, ms, xs :: rest => welfordLitGo (k + 1) (welfordSpecStep (EF.ofNat k) ms xs) rest

/-- The claimed recurrence transcribed literally (divisor `k` for the
`(k + 1)`-th slice, 1-indexed). -/
def varAxisLiteral (slices : List (List EF)) (p : ℕ) (ddof : EF) : List EF :=
  let n := EF.ofNat slices.length
  let ms := welfordLitGo 0 (List.replicate p (EF.ofNat 0, EF.ofNat 0)) slices
  ms.map (fun q => ef_div q.2 (ef_sub n ddof))

/-- Whether an `Except` result is the panic signal. -/
def isErr {ε α : Type} : Except ε α → Bool
  | Except.error _ => true
  | Except.ok _ => false

/-- A free magma with a formal identity: folding with `node` records
the exact association order of a reduction, so two folds are equal
exactly when they combine elements in the same order and grouping. -/
inductive FreeM where
  | unit : FreeM
  | leaf : ℕ → FreeM
  | node : FreeM → FreeM → FreeM
deriving DecidableEq

/-- The 3 by 2 example array `[[1,2],[3,4],[5,6]]`. -/
def demo32 : Arr2 EF :=
  ⟨[[EF.ofRat 1, EF.ofRat 2], [EF.ofRat 3, EF.ofRat 4], [EF.ofRat 5, EF.ofRat 6]], 2, Layout.cOrder⟩

/-- The example array `[1, NaN, 3, 4]`. -/
def demo134 : Arr2 EF :=
  ⟨[[EF.ofRat 1, EF.nan, EF.ofRat 3, EF.ofRat 4]], 4, Layout.cOrder⟩

/-- The example array `[[NaN, 2], [3, NaN]]`. -/
def demoNanMin : Arr2 EF :=
  ⟨[[EF.nan, EF.ofRat 2], [EF.ofRat 3, EF.nan]], 2, Layout.cOrder⟩

/-- The example array `[[1,2],[3,4]]` over embedded floats. -/
def demo22EF : Arr2 EF :=
  ⟨[[EF.ofRat 1, EF.ofRat 2], [EF.ofRat 3, EF.ofRat 4]], 2, Layout.cOrder⟩

/-- The example array `[[1,2],[3,4]]` over rationals. -/
def demo22Q : Arr2 ℚ := ⟨[[1, 2], [3, 4]], 2, Layout.cOrder⟩

/-- A 2 by 2 non-contiguous array of formal leaves (realisable as a
strided view whose rows are not stride-1 slices). -/
def cexArr : Arr2 FreeM :=
  ⟨[[FreeM.leaf 0, FreeM.leaf 1], [FreeM.leaf 2, FreeM.leaf 3]], 2, Layout.nonContig⟩

/-- A row-major contiguous array of formal leaves. -/
def w8Arr : Arr2 FreeM :=
  ⟨[[FreeM.leaf 1, FreeM.leaf 2]], 2, Layout.cOrder⟩

/-- A concrete square root valid at the single point the claims probe:
it sends `4` to `2`. -/
def csq : EF → EF := fun x => if x = EF.ofRat 4 then EF.ofRat 2 else EF.nan

/-! ### Basic facts about the embedded float comparisons -/

theorem ef_eq_self_false_iff (x : EF) : ef_eq x x = false ↔ x = none := by
  cases x <;> simp [ef_eq]

theorem ef_eq_self_true_iff (x : EF) : ef_eq x x = true ↔ ∃ q : ℚ, x = some q := by
  cases x <;> simp [ef_eq]

theorem ef_le_some_some (b c : ℚ) : ef_le (some b) (some c) = true ↔ b ≤ c := by
  simp [ef_le, ef_lt, ef_eq, le_iff_lt_or_eq]

/-! ### The four fold steps on concrete shapes -/

theorem stepMax_none (x : EF) : stepMax none x = none := by
  cases x <;> simp [stepMax, ef_eq]

theorem stepMax_some_none (a : ℚ) : stepMax (some a) none = none := by
  simp [stepMax, ef_eq, ef_lt]

theorem stepMax_some_some (a b : ℚ) : stepMax (some a) (some b) = some (max a b) := by
  rcases lt_or_ge b a with h | h
  · rw [max_eq_left h.le]
    simp [stepMax, ef_eq, ef_lt, h]
  · rw [max_eq_right h]
    simp [stepMax, ef_eq, ef_lt, h.not_lt]

theorem stepMin_none (x : EF) : stepMin none x = none := by
  cases x <;> simp [stepMin, ef_eq]

theorem stepMin_some_none (a : ℚ) : stepMin (some a) none = none := by
  simp [stepMin, ef_eq, ef_lt]

theorem stepMin_some_some (a b : ℚ) : stepMin (some a) (some b) = some (min a b) := by
  rcases lt_or_ge a b with h | h
  · rw [min_eq_left h.le]
    simp [stepMin, ef_eq, ef_lt, h]
  · rw [min_eq_right h]
    simp [stepMin, ef_eq, ef_lt, h.not_lt]

theorem stepNanMax_none (x : EF) : stepNanMax none x = x := by
  cases x <;> simp [stepNanMax, ef_eq]

theorem stepNanMax_some_none (a : ℚ) : stepNanMax (some a) none = some a := by
  simp [stepNanMax, ef_eq, ef_lt]

theorem stepNanMax_some_some (a b : ℚ) : stepNanMax (some a) (some b) = some (max a b) := by
  rcases lt_or_ge a b with h | h
  · rw [max_eq_right h.le]
    simp [stepNanMax, ef_eq, ef_lt, h]
  · rw [max_eq_left h]
    simp [stepNanMax, ef_eq, ef_lt, h.not_lt]

theorem stepNanMin_none (x : EF) : stepNanMin none x = x := by
  cases x <;> simp [stepNanMin, ef_eq]

theorem stepNanMin_some_none (a : ℚ) : stepNanMin (some a) none = some a := by
  simp [stepNanMin, ef_eq, ef_lt]

theorem stepNanMin_some_some (a b : ℚ) : stepNanMin (some a) (some b) = some (min a b) := by
  rcases lt_or_ge b a with h | h
  · rw [min_eq_right h.le]
    simp [stepNanMin, ef_eq, ef_lt, h]
  · rw [min_eq_left h]
    simp [stepNanMin, ef_eq, ef_lt, h.not_lt]

theorem stepMax_choice (acc x : EF) : stepMax acc x = acc ∨ stepMax acc x = x := by
  unfold stepMax
  by_cases h : (ef_eq acc acc && ! ef_lt x acc) = true
  · simp [h]
  · simp [h]

theorem stepMin_choice (acc x : EF) : stepMin acc x = acc ∨ stepMin acc x = x := by
  unfold stepMin
  by_cases h : (ef_eq acc acc && ! ef_lt acc x) = true
  · simp [h]
  · simp [h]

theorem stepNanMax_choice (acc x : EF) : stepNanMax acc x = acc ∨ stepNanMax acc x = x := by
  unfold stepNanMax
  by_cases h : (ef_eq acc acc && ! ef_lt acc x) = true
  · simp [h]
  · simp [h]

theorem stepNanMin_choice (acc x : EF) : stepNanMin acc x = acc ∨ stepNanMin acc x = x := by
  unfold stepNanMin
  by_cases h : (ef_eq acc acc && ! ef_lt x acc) = true
  · simp [h]
  · simp [h]

/-! ### Every fold whose step keeps or adopts lands in the input -/

theorem foldl_mem_of_step (f : EF → EF → EF)
    (hf : ∀ acc x, f acc x = acc ∨ f acc x = x) :
    ∀ (l : List EF) (acc : EF), List.foldl f acc l ∈ acc :: l := by
  intro l
  induction l with
  | nil =>
    intro acc
    exact List.mem_cons_self acc []
  | cons x t ih =>
    intro acc
    have hmem := ih (f acc x)
    rw [List.foldl_cons]
    rcases List.mem_cons.mp hmem with h1 | h1
    · rw [h1]
      rcases hf acc x with h | h
      · rw [h]
        exact List.mem_cons_self acc (x :: t)
      · rw [h]
        exact List.mem_cons_of_mem acc (List.mem_cons_self x t)
    · exact List.mem_cons_of_mem acc (List.mem_cons_of_mem x h1)

theorem extremaCore_some_mem (step : EF → EF → EF)
    (hstep : ∀ acc x, step acc x = acc ∨ step acc x = x)
    (l : List EF) (r : EF) (h : extremaCore step l = some r) : r ∈ l := by
  cases l with
  | nil => simp [extremaCore] at h
  | cons x t =>
    simp only [extremaCore] at h
    by_cases hc : ef_eq (List.foldl step x (x :: t)) (List.foldl step x (x :: t)) = true
    · rw [if_pos hc] at h
      have hr : List.foldl step x (x :: t) = r := Option.some.inj h
      have hmem := foldl_mem_of_step step hstep (x :: t) x
      rw [hr] at hmem
      rcases List.mem_cons.mp hmem with h1 | h1
      · exact h1 ▸ List.mem_cons_self x t
      · exact h1
    · rw [if_neg hc] at h
      exact absurd h (by simp)

/-! ### `max`/`min`: poison on any non-ordered element -/

theorem stepMax_any_none (acc : EF) : stepMax acc none = none := by
  cases acc with
  | none => exact stepMax_none none
  | some a => exact stepMax_some_none a

theorem stepMin_any_none (acc : EF) : stepMin acc none = none := by
  cases acc with
  | none => exact stepMin_none none
  | some a => exact stepMin_some_none a

theorem foldl_stepMax_from_none : ∀ l : List EF, List.foldl stepMax none l = none := by
  intro l
  induction l with
  | nil => rfl
  | cons x t ih => rw [List.foldl_cons, stepMax_none, ih]

theorem foldl_stepMin_from_none : ∀ l : List EF, List.foldl stepMin none l = none := by
  intro l
  induction l with
  | nil => rfl
  | cons x t ih => rw [List.foldl_cons, stepMin_none, ih]

theorem foldl_stepMax_poison :
    ∀ l : List EF, none ∈ l → ∀ acc, List.foldl stepMax acc l = none := by
  intro l
  induction l with
  | nil => intro hx; cases hx
  | cons x t ih =>
    intro hx acc
    rw [List.foldl_cons]
    rcases List.mem_cons.mp hx with h | h
    · rw [← h, stepMax_any_none]
      exact foldl_stepMax_from_none t
    · exact ih h (stepMax acc x)

theorem foldl_stepMin_poison :
    ∀ l : List EF, none ∈ l → ∀ acc, List.foldl stepMin acc l = none := by
  intro l
  induction l with
  | nil => intro hx; cases hx
  | cons x t ih =>
    intro hx acc
    rw [List.foldl_cons]
    rcases List.mem_cons.mp hx with h | h
    · rw [← h, stepMin_any_none]
      exact foldl_stepMin_from_none t
    · exact ih h (stepMin acc x)

theorem foldl_stepMax_some :
    ∀ (l : List EF) (a : ℚ), none ∉ l →
      ∃ m : ℚ, List.foldl stepMax (some a) l = some m ∧ (m = a ∨ some m ∈ l) ∧ a ≤ m ∧
        ∀ b : ℚ, some b ∈ l → b ≤ m := by
  intro l
  induction l with
  | nil =>
    intro a _
    refine ⟨a, rfl, Or.inl rfl, le_refl a, ?_⟩
    intro b hb
    cases hb
  | cons x t ih =>
    intro a hn
    have hnt : none ∉ t := fun h => hn (List.mem_cons_of_mem x h)
    cases x with
    | none => exact absurd (List.mem_cons_self none t) hn
    | some b0 =>
      obtain ⟨m, hm, hmem, hle, hub⟩ := ih (max a b0) hnt
      refine ⟨m, ?_, ?_, le_trans (le_max_left a b0) hle, ?_⟩
      · rw [List.foldl_cons, stepMax_some_some, hm]
      · rcases hmem with h | h
        · rcases max_choice a b0 with hc | hc
          · exact Or.inl (h.trans hc)
          · exact Or.inr (by rw [h, hc]; exact List.mem_cons_self (some b0) t)
        · exact Or.inr (List.mem_cons_of_mem (some b0) h)
      · intro b hb
        rcases List.mem_cons.mp hb with h | h
        · have : b = b0 := Option.some.inj h
          exact this ▸ le_trans (le_max_right a b0) hle
        · exact hub b h

theorem foldl_stepMin_some :
    ∀ (l : List EF) (a : ℚ), none ∉ l →
      ∃ m : ℚ, List.foldl stepMin (some a) l = some m ∧ (m = a ∨ some m ∈ l) ∧ m ≤ a ∧
        ∀ b : ℚ, some b ∈ l → m ≤ b := by
  intro l
  induction l with
  | nil =>
    intro a _
    refine ⟨a, rfl, Or.inl rfl, le_refl a, ?_⟩
    intro b hb
    cases hb
  | cons x t ih =>
    intro a hn
    have hnt : none ∉ t := fun h => hn (List.mem_cons_of_mem x h)
    cases x with
    | none => exact absurd (List.mem_cons_self none t) hn
    | some b0 =>
      obtain ⟨m, hm, hmem, hle, hub⟩ := ih (min a b0) hnt
      refine ⟨m, ?_, ?_, le_trans hle (min_le_left a b0), ?_⟩
      · rw [List.foldl_cons, stepMin_some_some, hm]
      · rcases hmem with h | h
        · rcases min_choice a b0 with hc | hc
          · exact Or.inl (h.trans hc)
          · exact Or.inr (by rw [h, hc]; exact List.mem_cons_self (some b0) t)
        · exact Or.inr (List.mem_cons_of_mem (some b0) h)
      · intro b hb
        rcases List.mem_cons.mp hb with h | h
        · have : b = b0 := Option.some.inj h
          exact this ▸ le_trans hle (min_le_right a b0)
        · exact hub b h

theorem maxList_none_iff (l : List EF) :
    maxList l = none ↔ l = [] ∨ none ∈ l := by
  cases l with
  | nil => simp [maxList, extremaCore]
  | cons x t =>
    by_cases hn : none ∈ x :: t
    · have hfold := foldl_stepMax_poison (x :: t) hn x
      simp [maxList, extremaCore, hfold, ef_eq, hn]
    · have hnn : (none ∈ x :: t) = False := by simp [hn]
      cases x with
      | none => exact absurd (List.mem_cons_self none t) hn
      | some a =>
        obtain ⟨m, hm, _, _, _⟩ := foldl_stepMax_some (some a :: t) a hn
        simp [maxList, extremaCore, hm, ef_eq, hnn]

theorem minList_none_iff (l : List EF) :
    minList l = none ↔ l = [] ∨ none ∈ l := by
  cases l with
  | nil => simp [minList, extremaCore]
  | cons x t =>
    by_cases hn : none ∈ x :: t
    · have hfold := foldl_stepMin_poison (x :: t) hn x
      simp [minList, extremaCore, hfold, ef_eq, hn]
    · have hnn : (none ∈ x :: t) = False := by simp [hn]
      cases x with
      | none => exact absurd (List.mem_cons_self none t) hn
      | some a =>
        obtain ⟨m, hm, _, _, _⟩ := foldl_stepMin_some (some a :: t) a hn
        simp [minList, extremaCore, hm, ef_eq, hnn]

theorem maxList_some_spec (l : List EF) (m : EF) (hm : maxList l = some m) :
    m ∈ l ∧ ∀ x ∈ l, ef_le x m = true := by
  cases l with
  | nil => simp [maxList, extremaCore] at hm
  | cons x t =>
    by_cases hn : none ∈ x :: t
    · have hfold := foldl_stepMax_poison (x :: t) hn x
      simp [maxList, extremaCore, hfold, ef_eq] at hm
    · cases x with
      | none => exact absurd (List.mem_cons_self none t) hn
      | some a =>
        obtain ⟨m0, hm0, hmem, _, hub⟩ := foldl_stepMax_some (some a :: t) a hn
        have hmval : m = some m0 := by
          simp [maxList, extremaCore, hm0, ef_eq] at hm
          exact hm.symm
        constructor
        · rw [hmval]
          rcases hmem with h | h
          · exact h ▸ List.mem_cons_self (some a) t
          · exact h
        · intro y hy
          cases y with
          | none => exact absurd hy hn
          | some b =>
            rw [hmval]
            exact (ef_le_some_some b m0).mpr (hub b hy)

theorem minList_some_spec (l : List EF) (m : EF) (hm : minList l = some m) :
    m ∈ l ∧ ∀ x ∈ l, ef_le m x = true := by
  cases l with
  | nil => simp [minList, extremaCore] at hm
  | cons x t =>
    by_cases hn : none ∈ x :: t
    · have hfold := foldl_stepMin_poison (x :: t) hn x
      simp [minList, extremaCore, hfold, ef_eq] at hm
    · cases x with
      | none => exact absurd (List.mem_cons_self none t) hn
      | some a =>
        obtain ⟨m0, hm0, hmem, _, hlb⟩ := foldl_stepMin_some (some a :: t) a hn
        have hmval : m = some m0 := by
          simp [minList, extremaCore, hm0, ef_eq] at hm
          exact hm.symm
        constructor
        · rw [hmval]
          rcases hmem with h | h
          · exact h ▸ List.mem_cons_self (some a) t
          · exact h
        · intro y hy
          cases y with
          | none => exact absurd hy hn
          | some b =>
            rw [hmval]
            exact (ef_le_some_some m0 b).mpr (hlb b hy)

/-! ### `nanmax`/`nanmin`: skip non-ordered elements -/

theorem foldl_stepNanMax_some :
    ∀ (l : List EF) (a : ℚ),
      ∃ m : ℚ, List.foldl stepNanMax (some a) l = some m ∧ (m = a ∨ some m ∈ l) ∧ a ≤ m ∧
        ∀ b : ℚ, some b ∈ l → b ≤ m := by
  intro l
  induction l with
  | nil =>
    intro a
    refine ⟨a, rfl, Or.inl rfl, le_refl a, ?_⟩
    intro b hb
    cases hb
  | cons x t ih =>
    intro a
    cases x with
    | none =>
      obtain ⟨m, hm, hmem, hle, hub⟩ := ih a
      refine ⟨m, ?_, ?_, hle, ?_⟩
      · rw [List.foldl_cons, stepNanMax_some_none, hm]
      · rcases hmem with h | h
        · exact Or.inl h
        · exact Or.inr (List.mem_cons_of_mem none h)
      · intro b hb
        rcases List.mem_cons.mp hb with h | h
        · exact absurd h (by simp)
        · exact hub b h
    | some b0 =>
      obtain ⟨m, hm, hmem, hle, hub⟩ := ih (max a b0)
      refine ⟨m, ?_, ?_, le_trans (le_max_left a b0) hle, ?_⟩
      · rw [List.foldl_cons, stepNanMax_some_some, hm]
      · rcases hmem with h | h
        · rcases max_choice a b0 with hc | hc
          · exact Or.inl (h.trans hc)
          · exact Or.inr (by rw [h, hc]; exact List.mem_cons_self (some b0) t)
        · exact Or.inr (List.mem_cons_of_mem (some b0) h)
      · intro b hb
        rcases List.mem_cons.mp hb with h | h
        · have : b = b0 := Option.some.inj h
          exact this ▸ le_trans (le_max_right a b0) hle
        · exact hub b h

theorem foldl_stepNanMin_some :
    ∀ (l : List EF) (a : ℚ),
      ∃ m : ℚ, List.foldl stepNanMin (some a) l = some m ∧ (m = a ∨ some m ∈ l) ∧ m ≤ a ∧
        ∀ b : ℚ, some b ∈ l → m ≤ b := by
  intro l
  induction l with
  | nil =>
    intro a
    refine ⟨a, rfl, Or.inl rfl, le_refl a, ?_⟩
    intro b hb
    cases hb
  | cons x t ih =>
    intro a
    cases x with
    | none =>
      obtain ⟨m, hm, hmem, hle, hlb⟩ := ih a
      refine ⟨m, ?_, ?_, hle, ?_⟩
      · rw [List.foldl_cons, stepNanMin_some_none, hm]
      · rcases hmem with h | h
        · exact Or.inl h
        · exact Or.inr (List.mem_cons_of_mem none h)
      · intro b hb
        rcases List.mem_cons.mp hb with h | h
        · exact absurd h (by simp)
        · exact hlb b h
    | some b0 =>
      obtain ⟨m, hm, hmem, hle, hlb⟩ := ih (min a b0)
      refine ⟨m, ?_, ?_, le_trans hle (min_le_left a b0), ?_⟩
      · rw [List.foldl_cons, stepNanMin_some_some, hm]
      · rcases hmem with h | h
        · rcases min_choice a b0 with hc | hc
          · exact Or.inl (h.trans hc)
          · exact Or.inr (by rw [h, hc]; exact List.mem_cons_self (some b0) t)
        · exact Or.inr (List.mem_cons_of_mem (some b0) h)
      · intro b hb
        rcases List.mem_cons.mp hb with h | h
        · have : b = b0 := Option.some.inj h
          exact this ▸ le_trans hle (min_le_right a b0)
        · exact hlb b h

theorem foldl_stepNanMax_from_none :
    ∀ l : List EF, (∃ q : ℚ, some q ∈ l) →
      ∃ m : ℚ, List.foldl stepNanMax none l = some m ∧ some m ∈ l ∧
        ∀ b : ℚ, some b ∈ l → b ≤ m := by
  intro l
  induction l with
  | nil =>
    rintro ⟨q, hq⟩
    cases hq
  | cons x t ih =>
    rintro ⟨q, hq⟩
    cases x with
    | none =>
      have hqt : some q ∈ t := by
        rcases List.mem_cons.mp hq with h | h
        · exact absurd h (by simp)
        · exact h
      obtain ⟨m, hm, hmem, hub⟩ := ih ⟨q, hqt⟩
      refine ⟨m, ?_, List.mem_cons_of_mem none hmem, ?_⟩
      · rw [List.foldl_cons, stepNanMax_none, hm]
      · intro b hb
        rcases List.mem_cons.mp hb with h | h
        · exact absurd h (by simp)
        · exact hub b h
    | some a0 =>
      obtain ⟨m, hm, hmem, hle, hub⟩ := foldl_stepNanMax_some t a0
      refine ⟨m, ?_, ?_, ?_⟩
      · rw [List.foldl_cons, stepNanMax_none, hm]
      · rcases hmem with h | h
        · exact h ▸ List.mem_cons_self (some a0) t
        · exact List.mem_cons_of_mem (some a0) h
      · intro b hb
        rcases List.mem_cons.mp hb with h | h
        · have : b = a0 := Option.some.inj h
          exact this ▸ hle
        · exact hub b h

theorem foldl_stepNanMin_from_none :
    ∀ l : List EF, (∃ q : ℚ, some q ∈ l) →
      ∃ m : ℚ, List.foldl stepNanMin none l = some m ∧ some m ∈ l ∧
        ∀ b : ℚ, some b ∈ l → m ≤ b := by
  intro l
  induction l with
  | nil =>
    rintro ⟨q, hq⟩
    cases hq
  | cons x t ih =>
    rintro ⟨q, hq⟩
    cases x with
    | none =>
      have hqt : some q ∈ t := by
        rcases List.mem_cons.mp hq with h | h
        · exact absurd h (by simp)
        · exact h
      obtain ⟨m, hm, hmem, hlb⟩ := ih ⟨q, hqt⟩
      refine ⟨m, ?_, List.mem_cons_of_mem none hmem, ?_⟩
      · rw [List.foldl_cons, stepNanMin_none, hm]
      · intro b hb
        rcases List.mem_cons.mp hb with h | h
        · exact absurd h (by simp)
        · exact hlb b h
    | some a0 =>
      obtain ⟨m, hm, hmem, hle, hlb⟩ := foldl_stepNanMin_some t a0
      refine ⟨m, ?_, ?_, ?_⟩
      · rw [List.foldl_cons, stepNanMin_none, hm]
      · rcases hmem with h | h
        · exact h ▸ List.mem_cons_self (some a0) t
        · exact List.mem_cons_of_mem (some a0) h
      · intro b hb
        rcases List.mem_cons.mp hb with h | h
        · have : b = a0 := Option.some.inj h
          exact this ▸ hle
        · exact hlb b h

theorem foldl_stepNanMax_allnan :
    ∀ l : List EF, (∀ x ∈ l, x = none) → List.foldl stepNanMax none l = none := by
  intro l
  induction l with
  | nil => intro _; rfl
  | cons x t ih =>
    intro h
    have hx : x = none := h x (List.mem_cons_self x t)
    rw [List.foldl_cons, hx, stepNanMax_none]
    exact ih (fun y hy => h y (List.mem_cons_of_mem x hy))

theorem foldl_stepNanMin_allnan :
    ∀ l : List EF, (∀ x ∈ l, x = none) → List.foldl stepNanMin none l = none := by
  intro l
  induction l with
  | nil => intro _; rfl
  | cons x t ih =>
    intro h
    have hx : x = none := h x (List.mem_cons_self x t)
    rw [List.foldl_cons, hx, stepNanMin_none]
    exact ih (fun y hy => h y (List.mem_cons_of_mem x hy))

theorem nanmaxList_none_iff (l : List EF) :
    nanmaxList l = none ↔ ∀ x ∈ l, x = none := by
  cases l with
  | nil => simp [nanmaxList, extremaCore]
  | cons x t =>
    by_cases hall : ∀ y ∈ x :: t, y = none
    · have hx : x = none := hall x (List.mem_cons_self x t)
      have hfold : List.foldl stepNanMax x (x :: t) = none := by
        rw [hx]
        rw [hx] at hall
        exact foldl_stepNanMax_allnan (none :: t) hall
      have hres : nanmaxList (x :: t) = none := by
        simp [nanmaxList, extremaCore, hfold, ef_eq]
      exact iff_of_true hres hall
    · have hex : ∃ q : ℚ, some q ∈ x :: t := by
        push_neg at hall
        obtain ⟨y, hy, hyn⟩ := hall
        cases y with
        | none => exact absurd rfl hyn
        | some q => exact ⟨q, hy⟩
      cases x with
      | none =>
        obtain ⟨m, hm, _, _⟩ := foldl_stepNanMax_from_none (none :: t) hex
        simp only [nanmaxList, extremaCore, hm, ef_eq]
        constructor
        · intro h
          exact absurd h (by simp)
        · intro h
          exact absurd hall (by simpa using h)
      | some a =>
        obtain ⟨m, hm, _, _, _⟩ := foldl_stepNanMax_some (some a :: t) a
        simp only [nanmaxList, extremaCore, hm, ef_eq]
        constructor
        · intro h
          exact absurd h (by simp)
        · intro h
          simp at h

theorem nanminList_none_iff (l : List EF) :
    nanminList l = none ↔ ∀ x ∈ l, x = none := by
  cases l with
  | nil => simp [nanminList, extremaCore]
  | cons x t =>
    by_cases hall : ∀ y ∈ x :: t, y = none
    · have hx : x = none := hall x (List.mem_cons_self x t)
      have hfold : List.foldl stepNanMin x (x :: t) = none := by
        rw [hx]
        rw [hx] at hall
        exact foldl_stepNanMin_allnan (none :: t) hall
      have hres : nanminList (x :: t) = none := by
        simp [nanminList, extremaCore, hfold, ef_eq]
      exact iff_of_true hres hall
    · have hex : ∃ q : ℚ, some q ∈ x :: t := by
        push_neg at hall
        obtain ⟨y, hy, hyn⟩ := hall
        cases y with
        | none => exact absurd rfl hyn
        | some q => exact ⟨q, hy⟩
      cases x with
      | none =>
        obtain ⟨m, hm, _, _⟩ := foldl_stepNanMin_from_none (none :: t) hex
        simp only [nanminList, extremaCore, hm, ef_eq]
        constructor
        · intro h
          exact absurd h (by simp)
        · intro h
          exact absurd hall (by simpa using h)
      | some a =>
        obtain ⟨m, hm, _, _, _⟩ := foldl_stepNanMin_some (some a :: t) a
        simp only [nanminList, extremaCore, hm, ef_eq]
        constructor
        · intro h
          exact absurd h (by simp)
        · intro h
          simp at h

theorem nanmaxList_some_spec (l : List EF) (m : EF) (hm : nanmaxList l = some m) :
    ef_eq m m = true ∧ m ∈ l ∧ ∀ x ∈ l, ef_eq x x = true → ef_le x m = true := by
  cases l with
  | nil => simp [nanmaxList, extremaCore] at hm
  | cons x t =>
    have main : ∃ m0 : ℚ, List.foldl stepNanMax x (x :: t) = some m0 ∧ some m0 ∈ x :: t ∧
        ∀ b : ℚ, some b ∈ x :: t → b ≤ m0 := by
      cases x with
      | none =>
        by_cases hall : ∀ y ∈ (none : EF) :: t, y = none
        · have hfold := foldl_stepNanMax_allnan (none :: t) hall
          simp [nanmaxList, extremaCore, hfold, ef_eq] at hm
        · have hex : ∃ q : ℚ, some q ∈ (none : EF) :: t := by
            push_neg at hall
            obtain ⟨y, hy, hyn⟩ := hall
            cases y with
            | none => exact absurd rfl hyn
            | some q => exact ⟨q, hy⟩
          obtain ⟨m0, hm0, hmem, hub⟩ := foldl_stepNanMax_from_none (none :: t) hex
          exact ⟨m0, hm0, hmem, hub⟩
      | some a =>
        obtain ⟨m0, hm0, hmem, _, hub⟩ := foldl_stepNanMax_some (some a :: t) a
        refine ⟨m0, hm0, ?_, hub⟩
        rcases hmem with h | h
        · exact h ▸ List.mem_cons_self (some a) t
        · exact h
    obtain ⟨m0, hm0, hmem, hub⟩ := main
    have hmval : m = some m0 := by
      simp [nanmaxList, extremaCore, hm0, ef_eq] at hm
      exact hm.symm
    refine ⟨by simp [hmval, ef_eq], hmval ▸ hmem, ?_⟩
    intro y hy hyord
    obtain ⟨b, hb⟩ := (ef_eq_self_true_iff y).mp hyord
    rw [hb, hmval]
    exact (ef_le_some_some b m0).mpr (hub b (hb ▸ hy))

theorem nanminList_some_spec (l : List EF) (m : EF) (hm : nanminList l = some m) :
    ef_eq m m = true ∧ m ∈ l ∧ ∀ x ∈ l, ef_eq x x = true → ef_le m x = true := by
  cases l with
  | nil => simp [nanminList, extremaCore] at hm
  | cons x t =>
    have main : ∃ m0 : ℚ, List.foldl stepNanMin x (x :: t) = some m0 ∧ some m0 ∈ x :: t ∧
        ∀ b : ℚ, some b ∈ x :: t → m0 ≤ b := by
      cases x with
      | none =>
        by_cases hall : ∀ y ∈ (none : EF) :: t, y = none
        · have hfold := foldl_stepNanMin_allnan (none :: t) hall
          simp [nanminList, extremaCore, hfold, ef_eq] at hm
        · have hex : ∃ q : ℚ, some q ∈ (none : EF) :: t := by
            push_neg at hall
            obtain ⟨y, hy, hyn⟩ := hall
            cases y with
            | none => exact absurd rfl hyn
            | some q => exact ⟨q, hy⟩
          obtain ⟨m0, hm0, hmem, hlb⟩ := foldl_stepNanMin_from_none (none :: t) hex
          exact ⟨m0, hm0, hmem, hlb⟩
      | some a =>
        obtain ⟨m0, hm0, hmem, _, hlb⟩ := foldl_stepNanMin_some (some a :: t) a
        refine ⟨m0, hm0, ?_, hlb⟩
        rcases hmem with h | h
        · exact h ▸ List.mem_cons_self (some a) t
        · exact h
    obtain ⟨m0, hm0, hmem, hlb⟩ := main
    have hmval : m = some m0 := by
      simp [nanminList, extremaCore, hm0, ef_eq] at hm
      exact hm.symm
    refine ⟨by simp [hmval, ef_eq], hmval ▸ hmem, ?_⟩
    intro y hy hyord
    obtain ⟨b, hb⟩ := (ef_eq_self_true_iff y).mp hyord
    rw [hb, hmval]
    exact (ef_le_some_some m0 b).mpr (hlb b (hb ▸ hy))

/-! ### Rational sums: folds, flat maps, column/row exchange -/

theorem foldl_add_eq (l : List ℚ) : ∀ c : ℚ, List.foldl (fun x y => x + y) c l = c + l.sum := by
  induction l with
  | nil => intro c; simp
  | cons a t ih =>
    intro c
    rw [List.foldl_cons, ih (c + a), List.sum_cons, add_assoc]

theorem sum1_eq (l : List ℚ) : sum1 l = l.sum := by
  rw [sum1, foldl_add_eq l 0, zero_add]

theorem sumAxis1D_eq (l : List ℚ) : sumAxis1D l = l.sum := by
  rw [sumAxis1D, foldl_add_eq l 0, zero_add]

theorem sum_flatMap (f : ℕ → List ℚ) :
    ∀ L : List ℕ, (L.flatMap f).sum = (L.map (fun j => (f j).sum)).sum := by
  intro L
  induction L with
  | nil => simp
  | cons a t ih => simp [List.flatMap_cons, List.sum_append, ih]

theorem sum_range_getD (r : List ℚ) :
    ((List.range r.length).map (fun j => r.getD j 0)).sum = r.sum := by
  induction r with
  | nil => simp
  | cons a t ih =>
    rw [List.length_cons, List.range_succ_eq_map, List.map_cons, List.getD_cons_zero,
      List.map_map]
    have hcomp : ((fun j => (a :: t).getD j 0) ∘ Nat.succ) = fun j => t.getD j 0 := by
      funext j
      simp [List.getD_cons_succ]
    rw [hcomp, List.sum_cons, ih, List.sum_cons]

theorem sum_range_getD_of_len (r : List ℚ) (n : ℕ) (h : r.length = n) :
    ((List.range n).map (fun j => r.getD j 0)).sum = r.sum := by
  rw [← h]
  exact sum_range_getD r

theorem sum_map_add_split (L : List ℕ) (f g : ℕ → ℚ) :
    (L.map (fun j => f j + g j)).sum = (L.map f).sum + (L.map g).sum := by
  induction L with
  | nil => simp
  | cons a t ih =>
    simp only [List.map_cons, List.sum_cons, ih]
    ring

theorem sum_cols_eq_sum_rows (n : ℕ) :
    ∀ rows : List (List ℚ), (∀ r ∈ rows, r.length = n) →
      ((List.range n).map (fun j => (rows.map (fun s => s.getD j 0)).sum)).sum
        = (rows.map List.sum).sum := by
  intro rows
  induction rows with
  | nil =>
    intro _
    simp
  | cons r rest ih =>
    intro h
    have hr : r.length = n := h r (List.mem_cons_self r rest)
    have hrest : ∀ s ∈ rest, s.length = n := fun s hs => h s (List.mem_cons_of_mem r hs)
    have hfun : (fun j => (((r :: rest).map (fun s => s.getD j 0)).sum))
        = fun j => r.getD j 0 + ((rest.map (fun s => s.getD j 0)).sum) := by
      funext j
      rw [List.map_cons, List.sum_cons]
    rw [hfun, sum_map_add_split, sum_range_getD_of_len r n hr, ih hrest, List.map_cons,
      List.sum_cons]

theorem zipAdd_sum : ∀ xs ys : List ℚ, xs.length = ys.length →
    (zipAdd xs ys).sum = xs.sum + ys.sum := by
  intro xs
  induction xs with
  | nil =>
    intro ys h
    cases ys with
    | nil => simp [zipAdd]
    | cons b u => simp at h
  | cons a t ih =>
    intro ys h
    cases ys with
    | nil => simp at h
    | cons b u =>
      have ht : t.length = u.length := by simpa using h
      simp only [zipAdd, List.zipWith_cons_cons, List.sum_cons]
      have := ih u ht
      rw [zipAdd] at this
      rw [this]
      ring

theorem zipAdd_length (xs ys : List ℚ) (h : xs.length = ys.length) :
    (zipAdd xs ys).length = xs.length := by
  simp [zipAdd, List.length_zipWith, h]

theorem foldl_zipAdd_spec (n : ℕ) :
    ∀ (L : List (List ℚ)) (init : List ℚ), init.length = n → (∀ r ∈ L, r.length = n) →
      (List.foldl zipAdd init L).sum = init.sum + (L.map List.sum).sum ∧
        (List.foldl zipAdd init L).length = n := by
  intro L
  induction L with
  | nil =>
    intro init hi _
    simp [hi]
  | cons r rest ih =>
    intro init hi h
    have hr : r.length = n := h r (List.mem_cons_self r rest)
    have h1 : (zipAdd init r).length = n := by
      rw [zipAdd_length init r (by rw [hi, hr])]
      exact hi
    obtain ⟨hs, hl⟩ := ih (zipAdd init r) h1 (fun s hs => h s (List.mem_cons_of_mem r hs))
    constructor
    · rw [List.foldl_cons, hs, zipAdd_sum init r (by rw [hi, hr]), List.map_cons,
        List.sum_cons]
      ring
    · rw [List.foldl_cons]
      exact hl

theorem rows_foldl_sum (rows : List (List ℚ)) : ∀ c : ℚ,
    List.foldl (fun acc row => acc + sum1 row) c rows = c + (rows.map List.sum).sum := by
  induction rows with
  | nil => intro c; simp
  | cons r rest ih =>
    intro c
    rw [List.foldl_cons, ih (c + sum1 r), List.map_cons, List.sum_cons, sum1_eq, add_assoc]

theorem sumArr_rat (a : Arr2 ℚ) (h : Rect a) :
    sumArr 0 (fun x y => x + y) a = a.elems.sum := by
  obtain ⟨rows, n, lay⟩ := a
  have hrect : ∀ r ∈ rows, r.length = n := h
  cases lay with
  | cOrder =>
    simp only [sumArr, asSliceMemOrder, unrolledFold]
    rw [foldl_add_eq _ 0, zero_add]
  | fOrder =>
    simp only [sumArr, asSliceMemOrder, unrolledFold, colMajor]
    rw [foldl_add_eq _ 0, zero_add, sum_flatMap, sum_cols_eq_sum_rows n rows hrect,
      Arr2.elems, List.sum_flatten]
  | nonContig =>
    simp only [sumArr, asSliceMemOrder]
    have hbody : (fun (acc : ℚ) (row : List ℚ) => acc + unrolledFold 0 (fun x y => x + y) row)
        = fun acc row => acc + sum1 row := rfl
    rw [hbody, rows_foldl_sum rows 0, zero_add, Arr2.elems, List.sum_flatten]

theorem sumAxis0_sum (a : Arr2 ℚ) (h : Rect a) : (sumAxis a 0).sum = a.elems.sum := by
  obtain ⟨rows, n, lay⟩ := a
  have hrect : ∀ r ∈ rows, r.length = n := h
  by_cases hf : lay = Layout.fOrder
  · subst hf
    simp only [sumAxis, eq_self_iff_true, if_true]
    have hfun : (fun j => sum1 (colOf ⟨rows, n, Layout.fOrder⟩ j))
        = fun j => ((rows.map (fun s => s.getD j 0)).sum) := by
      funext j
      rw [sum1_eq, colOf]
    rw [hfun, sum_cols_eq_sum_rows n rows hrect, Arr2.elems, List.sum_flatten]
  · have hsel : (Arr2.layout ⟨rows, n, lay⟩ = Layout.fOrder) = False := by
      simpa using hf
    simp only [sumAxis, eq_self_iff_true, if_true, hsel, if_false]
    obtain ⟨hs, _⟩ := foldl_zipAdd_spec n rows (List.replicate n 0)
      (List.length_replicate n 0) hrect
    rw [hs, List.sum_replicate, Arr2.elems, List.sum_flatten, smul_zero, zero_add]

theorem sumAxis1_sum (a : Arr2 ℚ) (h : Rect a) : (sumAxis a 1).sum = a.elems.sum := by
  obtain ⟨rows, n, lay⟩ := a
  have hrect : ∀ r ∈ rows, r.length = n := h
  have hone : (1 = 0) = False := by simp
  by_cases hc : lay = Layout.cOrder
  · subst hc
    simp only [sumAxis, hone, if_false, eq_self_iff_true, if_true]
    have hfun : (fun r => sum1 r) = fun r : List ℚ => r.sum := by
      funext r
      exact sum1_eq r
    rw [hfun, Arr2.elems, List.sum_flatten]
  · have hsel : (Arr2.layout ⟨rows, n, lay⟩ = Layout.cOrder) = False := by
      simpa using hc
    simp only [sumAxis, hone, if_false, hsel, eq_self_iff_true, if_true]
    have hcols : ∀ s ∈ (List.range n).map (colOf ⟨rows, n, lay⟩), s.length = rows.length := by
      intro s hs
      obtain ⟨j, _, hj⟩ := List.mem_map.mp hs
      rw [← hj, colOf, List.length_map]
    obtain ⟨hs, _⟩ := foldl_zipAdd_spec rows.length ((List.range n).map (colOf ⟨rows, n, lay⟩))
      (List.replicate rows.length 0) (List.length_replicate rows.length 0) hcols
    rw [hs, List.sum_replicate, smul_zero, zero_add, List.map_map]
    have hfun : (List.sum ∘ colOf ⟨rows, n, lay⟩) = fun j => ((rows.map (fun s => s.getD j 0)).sum) := by
      funext j
      simp [colOf]
    rw [hfun, sum_cols_eq_sum_rows n rows hrect, Arr2.elems, List.sum_flatten]

/-! ### Welford loop: the enumerate-based loop against the 1-indexed-counter loop -/

theorem welfordSpecStep_eq (k : EF) (ms : List (EF × EF)) (xs : List EF) :
    welfordSpecStep k ms xs = welfordStep k ms xs := rfl

theorem welfordGo_eq_specGo :
    ∀ (ss : List (List EF)) (i : ℕ) (ms : List (EF × EF)),
      welfordGo i ms ss = welfordSpecGo (i + 1) ms ss := by
  intro ss
  induction ss with
  | nil => intro i ms; rfl
  | cons xs rest ih =>
    intro i ms
    rw [welfordGo, welfordSpecGo, welfordSpecStep_eq, ih]

theorem slicesOf_length (a : Arr2 EF) (ax : ℕ) : (slicesOf a ax).length = lenOf a ax := by
  by_cases h : ax = 0 <;> simp [slicesOf, lenOf, h]

theorem flatMap_const_nil {α : Type} :
    ∀ L : List ℕ, (L.flatMap fun _ => ([] : List α)) = [] := by
  intro L
  induction L with
  | nil => rfl
  | cons a t ih => rw [List.flatMap_cons, List.nil_append, ih]

theorem exists_self_neq_iff (l : List EF) :
    (∃ x ∈ l, ef_eq x x = false) ↔ none ∈ l := by
  constructor
  · rintro ⟨x, hx, hfx⟩
    exact (ef_eq_self_false_iff x).mp hfx ▸ hx
  · intro h
    exact ⟨none, h, rfl⟩

theorem all_self_neq_iff (l : List EF) :
    (∀ x ∈ l, ef_eq x x = false) ↔ ∀ x ∈ l, x = none := by
  constructor <;> intro h x hx
  · exact (ef_eq_self_false_iff x).mp (h x hx)
  · rw [h x hx]
    rfl

/-! ### Claim theorems -/

/-- C1 (counterexample): the claimed recurrence, transcribed literally,
divides by `k` while consuming the `(k+1)`-th slice (1-indexed), hence
divides by zero on the first slice; on `[[1,2],[3,4],[5,6]]` with axis 0
and `ddof = 1` the code returns `[4,4]` while the literal recurrence
does not, so `var_axis` does not compute the recurrence exactly as
claimed. -/
theorem varAxis_divisor_cex :
    var_axis demo32 0 (EF.ofNat 1)
      ≠ Except.ok (varAxisLiteral (slicesOf demo32 0) (posOf demo32 0) (EF.ofNat 1)) := by
  have h1 : var_axis demo32 0 (EF.ofNat 1) = Except.ok [EF.ofRat 4, EF.ofRat 4] := by
    simp only [var_axis, demo32, lenOf, posOf, slicesOf, welfordGo, welfordStep, List.replicate,
      List.zipWith_cons_cons, List.zipWith_nil_right, List.zipWith_nil_left, List.map_cons,
      List.map_nil, ef_lt, EF.ofNat, EF.ofRat]
    norm_num [ef_sub, ef_add, ef_div, ef_mul, ef_mulAdd, ef_eq]
  have h2 : varAxisLiteral (slicesOf demo32 0) (posOf demo32 0) (EF.ofNat 1)
      = [EF.nan, EF.nan] := by
    simp only [varAxisLiteral, demo32, lenOf, posOf, slicesOf, welfordLitGo, welfordSpecStep,
      List.replicate, List.zipWith_cons_cons, List.zipWith_nil_right, List.zipWith_nil_left,
      List.map_cons, List.map_nil, List.length_cons, List.length_nil, EF.ofNat, EF.ofRat, EF.nan]
    norm_num [ef_sub, ef_add, ef_div, ef_mul, ef_mulAdd, ef_eq]
  rw [h1, h2]
  intro hcontra
  simp [EF.ofRat, EF.nan] at hcontra

/-- C1 (amended): `var_axis` computes variance along the given axis by
the streaming Welford recurrence exactly as specified once the counter
is read as the 1-indexed position of the slice being consumed (the
`c`-th slice, 1-indexed, divides by `c`): `mean` and `sum_sq` arrays of
the shape with the axis removed are zero-initialised; each slice
performs `delta = x - mean; mean += delta / c;
sum_sq += fma(x - mean, delta, sum_sq)` at every position; finally
`sum_sq` is divided element-wise by `(axis_length - ddof)`. -/
theorem varAxis_matches_spec (a : Arr2 EF) (ax : ℕ) (ddof : EF) (h1 : ax < 2)
    (h2 : (ef_lt ddof (EF.ofNat 0) || ef_lt (EF.ofNat (lenOf a ax)) ddof) = false) :
    var_axis a ax ddof = Except.ok (varAxisSpec (slicesOf a ax) (posOf a ax) ddof) := by
  have hax : ¬ 2 ≤ ax := by omega
  rw [var_axis, varAxisSpec, if_neg hax, slicesOf_length]
  simp only [h2, Bool.false_eq_true, if_false, welfordGo_eq_specGo, Nat.zero_add]

/-- C1 (amended, witness): the amended recurrence statement applied to
`[[1,2],[3,4],[5,6]]` with axis 0 and `ddof = 1`. -/
theorem varAxis_matches_spec_w :
    var_axis demo32 0 (EF.ofNat 1)
      = Except.ok (varAxisSpec (slicesOf demo32 0) (posOf demo32 0) (EF.ofNat 1)) :=
  varAxis_matches_spec demo32 0 (EF.ofNat 1) (by decide) (by decide)

/-- C5: `var_axis` (and `std_axis`, which delegates to it) panics
exactly when the axis is out of range or the partial-order comparisons
`ddof < 0` or `ddof > n` hold, `n` being the converted length of the
reduced axis; the `ddof` assertion is a pure test of `ddof` and `n`
running before any accumulation, as the right side of the equivalence
does not mention the array elements. -/
theorem varAxis_panics_iff (a : Arr2 EF) (ax : ℕ) (d : EF) :
    (isErr (var_axis a ax d) = true ↔
      2 ≤ ax ∨ ef_lt d (EF.ofNat 0) = true ∨ ef_lt (EF.ofNat (lenOf a ax)) d = true) ∧
    ∀ sq : EF → EF, isErr (std_axis sq a ax d) = isErr (var_axis a ax d) := by
  constructor
  · by_cases hax : 2 ≤ ax
    · rw [var_axis, if_pos hax]
      exact iff_of_true rfl (Or.inl hax)
    · rw [var_axis, if_neg hax]
      by_cases hd : (ef_lt d (EF.ofNat 0) || ef_lt (EF.ofNat (lenOf a ax)) d) = true
      · refine iff_of_true ?_ (Or.inr (Bool.or_eq_true_iff.mp hd))
        simp [hd, isErr]
      · have hd0 : (ef_lt d (EF.ofNat 0) || ef_lt (EF.ofNat (lenOf a ax)) d) = false := by
          simpa using hd
        refine iff_of_false ?_ ?_
        · simp [hd0, isErr]
        · rintro (h | h | h)
          · exact hax h
          · exact hd (Bool.or_eq_true_iff.mpr (Or.inl h))
          · exact hd (Bool.or_eq_true_iff.mpr (Or.inr h))
  · intro sq
    rw [std_axis]
    cases var_axis a ax d <;> rfl

/-- C5 (witness): axis 3 of a 2-D array is out of range, so `var_axis`
panics there. -/
theorem varAxis_panics_iff_w : isErr (var_axis demo22EF 3 (EF.ofNat 0)) = true :=
  (varAxis_panics_iff demo22EF 3 (EF.ofNat 0)).1.mpr (Or.inl (by decide))

/-- C7: on `[[1,2],[3,4],[5,6]]` with axis 0 and `ddof = 1`, `var_axis`
returns `[4,4]`, and `std_axis` (for any square root sending `4` to
`2`) returns `[2,2]`. -/
theorem varAxis_stdAxis_example (sq : EF → EF) (hsq : sq (EF.ofRat 4) = EF.ofRat 2) :
    var_axis demo32 0 (EF.ofNat 1) = Except.ok [EF.ofRat 4, EF.ofRat 4] ∧
    std_axis sq demo32 0 (EF.ofNat 1) = Except.ok [EF.ofRat 2, EF.ofRat 2] := by
  have h1 : var_axis demo32 0 (EF.ofNat 1) = Except.ok [EF.ofRat 4, EF.ofRat 4] := by
    simp only [var_axis, demo32, lenOf, posOf, slicesOf, welfordGo, welfordStep, List.replicate,
      List.zipWith_cons_cons, List.zipWith_nil_right, List.zipWith_nil_left, List.map_cons,
      List.map_nil, ef_lt, EF.ofNat, EF.ofRat]
    norm_num [ef_sub, ef_add, ef_div, ef_mul, ef_mulAdd, ef_eq]
  refine ⟨h1, ?_⟩
  rw [std_axis, h1]
  simp [Except.map, hsq]

/-- C7 (witness): the example instantiated with a concrete square root
valid at `4`. -/
theorem varAxis_stdAxis_example_w :
    var_axis demo32 0 (EF.ofNat 1) = Except.ok [EF.ofRat 4, EF.ofRat 4] ∧
    std_axis csq demo32 0 (EF.ofNat 1) = Except.ok [EF.ofRat 2, EF.ofRat 2] :=
  varAxis_stdAxis_example csq (by decide)

/-- C10: a non-ordered `ddof` passes the validity assertion, because
both partial-order comparisons `ddof < 0` and `ddof > n` are false for
it; `var_axis` does not panic and the reduction proceeds with the
non-ordered `ddof` inside the `(axis_length - ddof)` divisor, so every
output entry is non-ordered. -/
theorem varAxis_nan_ddof_no_panic :
    var_axis demo22EF 0 EF.nan = Except.ok [EF.nan, EF.nan] := by
  simp only [var_axis, demo22EF, lenOf, posOf, slicesOf, welfordGo, welfordStep, List.replicate,
    List.zipWith_cons_cons, List.zipWith_nil_right, List.zipWith_nil_left, List.map_cons,
    List.map_nil, ef_lt, EF.ofNat, EF.ofRat, EF.nan]
  norm_num [ef_sub, ef_add, ef_div, ef_mul, ef_mulAdd, ef_eq]

/-- C2: `max` (respectively `min`) returns `None` exactly when the
array is empty or some element fails self-comparison — one incomparable
element poisons the whole reduction — and otherwise returns `Some` of a
maximum (respectively minimum) element of the array; in particular
`max([1, NaN, 3, 4])` is `None`. -/
theorem max_min_poison (a : Arr2 EF) :
    (maxArr a = none ↔ a.elems = [] ∨ ∃ x ∈ a.elems, ef_eq x x = false) ∧
    (∀ m, maxArr a = some m → m ∈ a.elems ∧ ∀ x ∈ a.elems, ef_le x m = true) ∧
    (minArr a = none ↔ a.elems = [] ∨ ∃ x ∈ a.elems, ef_eq x x = false) ∧
    (∀ m, minArr a = some m → m ∈ a.elems ∧ ∀ x ∈ a.elems, ef_le m x = true) ∧
    maxArr demo134 = none := by
  refine ⟨?_, ?_, ?_, ?_, ?_⟩
  · rw [maxArr, maxList_none_iff, exists_self_neq_iff]
  · intro m hm
    exact maxList_some_spec a.elems m hm
  · rw [minArr, minList_none_iff, exists_self_neq_iff]
  · intro m hm
    exact minList_some_spec a.elems m hm
  · decide

/-- C2 (witness): the poison example `max([1, NaN, 3, 4]) = None`. -/
theorem max_min_poison_w : maxArr demo134 = none :=
  (max_min_poison demo134).2.2.2.2

/-- C3: `nanmax` (respectively `nanmin`) never adopts a non-ordered
element: whenever it returns `Some m`, `m` is an ordered element of the
array bounding every ordered element from above (respectively below),
and it returns `None` exactly when every element is non-ordered (which
covers the empty array); in particular `nanmax([1, NaN, 3, 4])` is `4`
and `nanmin([[NaN, 2], [3, NaN]])` is `2`. -/
theorem nan_extrema_skip (a : Arr2 EF) :
    (nanmaxArr a = none ↔ ∀ x ∈ a.elems, ef_eq x x = false) ∧
    (∀ m, nanmaxArr a = some m → ef_eq m m = true ∧ m ∈ a.elems ∧
      ∀ x ∈ a.elems, ef_eq x x = true → ef_le x m = true) ∧
    (nanminArr a = none ↔ ∀ x ∈ a.elems, ef_eq x x = false) ∧
    (∀ m, nanminArr a = some m → ef_eq m m = true ∧ m ∈ a.elems ∧
      ∀ x ∈ a.elems, ef_eq x x = true → ef_le m x = true) ∧
    nanmaxArr demo134 = some (EF.ofRat 4) ∧ nanminArr demoNanMin = some (EF.ofRat 2) := by
  refine ⟨?_, ?_, ?_, ?_, ?_, ?_⟩
  · rw [nanmaxArr, nanmaxList_none_iff]
    exact (all_self_neq_iff a.elems).symm
  · intro m hm
    exact nanmaxList_some_spec a.elems m hm
  · rw [nanminArr, nanminList_none_iff]
    exact (all_self_neq_iff a.elems).symm
  · intro m hm
    exact nanminList_some_spec a.elems m hm
  · decide
  · decide

/-- C3 (witness): the skip examples `nanmax([1, NaN, 3, 4]) = 4` and
`nanmin([[NaN, 2], [3, NaN]]) = 2`. -/
theorem nan_extrema_skip_w :
    nanmaxArr demo134 = some (EF.ofRat 4) ∧ nanminArr demoNanMin = some (EF.ofRat 2) :=
  (nan_extrema_skip demo134).2.2.2.2

/-- C4: `mean` returns `None` exactly when the array has zero elements;
on a non-empty rational array it returns `Some` of the sum of all
elements divided by the element count; with a numeric type whose count
conversion fails at the element count it panics; and the mean of
`[[1,2],[3,4]]` is `5/2`. -/
theorem mean_spec (a : Arr2 ℚ) (h : Rect a) :
    (meanArr ratOps a = Except.ok none ↔ a.elems = []) ∧
    (a.elems ≠ [] →
      meanArr ratOps a = Except.ok (some (a.elems.sum / (a.elems.length : ℚ)))) ∧
    (∀ b : Arr2 ℚ, b.elems ≠ [] → tinyOps.fromUsize b.elems.length = none →
      isErr (meanArr tinyOps b) = true) ∧
    meanArr ratOps demo22Q = Except.ok (some (5 / 2)) := by
  refine ⟨?_, ?_, ?_, ?_⟩
  · by_cases he : a.elems.length = 0
    · have : a.elems = [] := List.length_eq_zero.mp he
      simp [meanArr, he, this]
    · have : a.elems ≠ [] := fun hh => he (by rw [hh]; rfl)
      simp [meanArr, he, ratOps, this]
  · intro hne
    have he : a.elems.length ≠ 0 := fun hh => hne (List.length_eq_zero.mp hh)
    simp only [meanArr, he, if_false, ratOps]
    rw [sumArr_rat a h]
    norm_num
  · intro b hb hfail
    have he : b.elems.length ≠ 0 := fun hh => hb (List.length_eq_zero.mp hh)
    simp [meanArr, he, hfail, isErr]
  · norm_num [meanArr, ratOps, Arr2.elems, demo22Q, sumArr, asSliceMemOrder, unrolledFold]

/-- C4 (witness): the mean statement applied to `[[1,2],[3,4]]`. -/
theorem mean_spec_w : meanArr ratOps demo22Q = Except.ok (some (5 / 2)) :=
  (mean_spec demo22Q (by decide)).2.2.2

/-- C6: on a 2-D array, reducing both axes by composing `sum_axis` —
either axis first, then the remaining axis of the rank-1 result —
yields the value of the full `sum()` of the array. -/
theorem sumAxis_compose_eq_sum (a : Arr2 ℚ) (h : Rect a) :
    sumAxis1D (sumAxis a 0) = sumArr 0 (fun x y => x + y) a ∧
    sumAxis1D (sumAxis a 1) = sumArr 0 (fun x y => x + y) a := by
  constructor
  · rw [sumAxis1D_eq, sumAxis0_sum a h, sumArr_rat a h]
  · rw [sumAxis1D_eq, sumAxis1_sum a h, sumArr_rat a h]

/-- C6 (witness): the composition statement applied to `[[1,2],[3,4]]`. -/
theorem sumAxis_compose_eq_sum_w :
    sumAxis1D (sumAxis demo22Q 0) = sumArr 0 (fun x y => x + y) demo22Q ∧
    sumAxis1D (sumAxis demo22Q 1) = sumArr 0 (fun x y => x + y) demo22Q :=
  sumAxis_compose_eq_sum demo22Q (by decide)

/-- C8 (counterexample): over the free magma — whose fold records the
exact association order — the row-by-row fallback of `sum` on a
non-contiguous 2 by 2 array differs from the left-to-right zero-seeded
fold of the elements in logical index order: the fallback seeds a fresh
fold per row and combines the per-row results, which reassociates. -/
theorem sum_flat_fold_cex :
    sumArr FreeM.unit FreeM.node cexArr ≠ List.foldl FreeM.node FreeM.unit cexArr.elems := by
  decide

/-- C8 (amended): on arrays whose memory-order slice exists in
row-major order, `sum` (respectively `product`) is exactly the
deterministic left-to-right identity-seeded fold of all elements in
logical index order; and on an empty array `sum` is the zero identity
and `product` the one identity under every layout. -/
theorem sum_product_contiguous_fold {α : Type} (z o : α) (add mul : α → α → α)
    (a : Arr2 α) (h : a.layout = Layout.cOrder) :
    (sumArr z add a = List.foldl add z a.elems ∧
      productArr o mul a = List.foldl mul o a.elems) ∧
    ∀ (lay : Layout) (n : ℕ),
      sumArr z add ⟨[], n, lay⟩ = z ∧ productArr o mul ⟨[], n, lay⟩ = o := by
  constructor
  · obtain ⟨rows, n, lay⟩ := a
    simp only at h
    subst h
    exact ⟨rfl, rfl⟩
  · intro lay n
    cases lay with
    | cOrder => exact ⟨rfl, rfl⟩
    | fOrder =>
      constructor <;>
        simp [sumArr, productArr, asSliceMemOrder, colMajor, unrolledFold, flatMap_const_nil]
    | nonContig => exact ⟨rfl, rfl⟩

/-- C8 (amended, witness): the fold statement applied to a row-major
contiguous array of formal leaves. -/
theorem sum_product_contiguous_fold_w :
    (sumArr FreeM.unit FreeM.node w8Arr = List.foldl FreeM.node FreeM.unit w8Arr.elems ∧
      productArr FreeM.unit FreeM.node w8Arr = List.foldl FreeM.node FreeM.unit w8Arr.elems) ∧
    ∀ (lay : Layout) (n : ℕ),
      sumArr FreeM.unit FreeM.node ⟨[], n, lay⟩ = FreeM.unit ∧
        productArr FreeM.unit FreeM.node ⟨[], n, lay⟩ = FreeM.unit :=
  sum_product_contiguous_fold FreeM.unit FreeM.unit FreeM.node FreeM.node w8Arr rfl

/-- C9: whenever `max`, `min`, `nanmax` or `nanmin` returns `Some r`,
the result `r` is one of the elements of the array, never a synthesized
value. -/
theorem extrema_result_mem (a : Arr2 EF) (r : EF) :
    (maxArr a = some r → r ∈ a.elems) ∧ (minArr a = some r → r ∈ a.elems) ∧
    (nanmaxArr a = some r → r ∈ a.elems) ∧ (nanminArr a = some r → r ∈ a.elems) := by
  refine ⟨?_, ?_, ?_, ?_⟩ <;> intro hm
  · exact extremaCore_some_mem stepMax stepMax_choice a.elems r hm
  · exact extremaCore_some_mem stepMin stepMin_choice a.elems r hm
  · exact extremaCore_some_mem stepNanMax stepNanMax_choice a.elems r hm
  · exact extremaCore_some_mem stepNanMin stepNanMin_choice a.elems r hm

/-- C9 (witness): the `nanmax` result on `[1, NaN, 3, 4]` is an element
of that array. -/
theorem extrema_result_mem_w : EF.ofRat 4 ∈ demo134.elems :=
  (extrema_result_mem demo134 (EF.ofRat 4)).2.2.1 (by decide)

end NdVerif
